import Mathlib

/-!
Verification of the bytepool repository: a tiered byte-buffer pool
(pool.go), a reference-counted buffer handle (buffer.go), a lock-free
statistics ring queue (ring_queue.go) and a mutex-guarded ring queue
(locked_ring_queue.go).

Shallow embedding conventions:
- Go slices of bytes are modelled by their observable length and capacity
  only (the byte contents are never inspected by the pool).
- Go int and int64 are modelled by Int, Go array indices and counts by
  Nat.  Overflow of the monotonically increasing int64 write cursor and
  of the int32 reference counter is not modelled (it would need more
  than 2^63 sequential operations to arise).
- Mutable arrays are modelled as functions from index to value.
- sync.Pool for a size class is modelled as a list of cached buffers:
  Get pops the head or constructs a fresh buffer via the class's New
  function, Put pushes.  Every buffer the code ever stores in a class
  cache is inserted by BytePool.Put.
- A Go panic is modelled by returning none from the constructor.
- Effects on the owning pool performed by Buffer.Release are made
  explicit: Release returns the buffer that is handed to pools.Put, if
  any, alongside the updated handle.
-/

/-- Observable shape of a Go byte slice: its length and capacity.
A nil slice is the slice with length 0 and capacity 0. -/
structure GoSlice where
  length : Int
  capacity : Int
  deriving DecidableEq, Repr

/-- Go's make with n bytes: length n, capacity n. -/
def GoSlice.make (n : Int) : GoSlice := ⟨n, n⟩

/-- The nil slice. -/
def GoSlice.nil : GoSlice := ⟨0, 0⟩

/-! ## Lock-free ring queue (ring_queue.go) -/

/-- RingQueue is the simplified lock-free ring queue of ring_queue.go:
a storage array (modelled as a function from slot to value), its size,
and a monotonically increasing write position. -/
structure RingQueue (α : Type) where
  data : Nat → α
  size : Nat
  writePos : Nat

namespace RingQueue

/-- NewRingQueue: fresh queue, storage filled with zero values.
The Go constructor panics when size is not positive; theorems carry the
positivity hypothesis instead. -/
def new (α : Type) [Inhabited α] (size : Nat) : RingQueue α :=
  { data := fun _ => default, size := size, writePos := 0 }

/-- Push: write the item at writePos modulo size, then advance the
write position. -/
def Push (rq : RingQueue α) (item : α) : RingQueue α :=
  let pos := rq.writePos
  let actualPos := pos % rq.size
  { rq with
    data := fun s => if s = actualPos then item else rq.data s
    writePos := pos + 1 }

/-- Bytes: snapshot of the queue contents, oldest to newest.
Mirrors ring_queue.go: empty when nothing was written; the first
writePos slots when no wrap has occurred; otherwise the size slots
starting at writePos modulo size. -/
def Bytes (rq : RingQueue α) : List α :=
  let w := rq.writePos
  if w = 0 then []
  else if w ≤ rq.size then (List.range w).map rq.data
  else
    let firstPos := w % rq.size
    (List.range rq.size).map (fun i => rq.data ((firstPos + i) % rq.size))

/-- Len: number of elements currently readable. -/
def Len (rq : RingQueue α) : Nat :=
  if rq.writePos ≤ rq.size then rq.writePos else rq.size

/-- Cap: the fixed capacity. -/
def Cap (rq : RingQueue α) : Nat := rq.size

/-- IsFull: the queue has wrapped or exactly filled. -/
def IsFull (rq : RingQueue α) : Bool := rq.size ≤ rq.writePos

/-- IsEmpty: nothing was ever written. -/
def IsEmpty (rq : RingQueue α) : Bool := rq.writePos = 0

/-- Sequential application of Push over a list of values. -/
def pushAll (rq : RingQueue α) (vs : List α) : RingQueue α :=
  vs.foldl Push rq

end RingQueue

/-! ## Mutex-guarded ring queue (locked_ring_queue.go) -/

/-- LockedRingQueue: storage, size, write cursor, read cursor (oldest
element) and an explicit element count.  The mutex serialises access;
the sequential model needs no lock. -/
structure LockedRingQueue (α : Type) where
  data : Nat → α
  size : Nat
  writePos : Nat
  readPos : Nat
  count : Nat

namespace LockedRingQueue

/-- NewLockedRingQueue: fresh queue with zeroed storage and cursors. -/
def new (α : Type) [Inhabited α] (size : Nat) : LockedRingQueue α :=
  { data := fun _ => default, size := size, writePos := 0, readPos := 0, count := 0 }

/-- Push: write at writePos, advance it modulo size; grow the count
while not full, otherwise advance the read position (overwrite the
oldest element). -/
def Push (lrq : LockedRingQueue α) (item : α) : LockedRingQueue α :=
  let data := fun s => if s = lrq.writePos then item else lrq.data s
  let writePos := (lrq.writePos + 1) % lrq.size
  if lrq.count < lrq.size then
    { lrq with data := data, writePos := writePos, count := lrq.count + 1 }
  else
    { lrq with
      data := data
      writePos := writePos
      readPos := (lrq.readPos + 1) % lrq.size }

/-- Bytes: the count elements starting at readPos, oldest to newest. -/
def Bytes (lrq : LockedRingQueue α) : List α :=
  if lrq.count = 0 then []
  else (List.range lrq.count).map (fun i => lrq.data ((lrq.readPos + i) % lrq.size))

/-- Len: the current element count. -/
def Len (lrq : LockedRingQueue α) : Nat := lrq.count

/-- Cap: the fixed capacity. -/
def Cap (lrq : LockedRingQueue α) : Nat := lrq.size

/-- IsFull: count has reached size. -/
def IsFull (lrq : LockedRingQueue α) : Bool := lrq.count = lrq.size

/-- IsEmpty: count is zero. -/
def IsEmpty (lrq : LockedRingQueue α) : Bool := lrq.count = 0

/-- Sequential application of Push over a list of values. -/
def pushAll (lrq : LockedRingQueue α) (vs : List α) : LockedRingQueue α :=
  vs.foldl Push lrq

end LockedRingQueue

/-! ## Tiered byte pool (pool.go) -/

/-- Per-class statistics counters (PoolStats in pool.go). -/
structure PoolStats where
  Get : Int
  Put : Int
  deriving DecidableEq, Repr

/-- BytePool: the multi-tier memory pool of pool.go.
The per-class sync.Pool caches are modelled as lists of cached buffers
indexed by the class size; the stats map is modelled as a total function
that is zero outside the configured classes. -/
structure BytePool where
  pools : Int → List GoSlice
  stats : Int → PoolStats
  sizes : List Int
  sizesLen : Nat
  discardedCount : Int
  maxPoolSize : Int
  recentLengths : RingQueue Int
  totalGet : Int
  totalPut : Int

namespace BytePool

/-- NewPools: panics (modelled as none) when sizes is empty; otherwise
sorts a copy of the size list ascending, sets maxPoolSize to its last
element, and creates an empty cache and zero counters per class. -/
def NewPools (sizes : List Int) : Option BytePool :=
  if sizes.length < 1 then none
  else
    let sorted := sizes.insertionSort (· ≤ ·)
    some
      { pools := fun _ => []
        stats := fun _ => ⟨0, 0⟩
        sizes := sorted
        sizesLen := sizes.length
        discardedCount := 0
        maxPoolSize := sorted.getLastD 0
        recentLengths := RingQueue.new Int 256
        totalGet := 0
        totalPut := 0 }

/-- findBestSize: first (hence, with sizes sorted ascending, smallest)
class that is at least the requested length; falls back to the largest
class. -/
def findBestSize (p : BytePool) (length : Int) : Int :=
  match p.sizes.find? (fun size => decide (length ≤ size)) with
  | some size => size
  | none => p.sizes.getLastD 0

/-- Get: returns the acquired slice and the updated pool state.
Mirrors pool.go: nil for non-positive lengths; records the requested
length in the ring queue; discards (fresh allocation, discardedCount)
above maxPoolSize; otherwise serves a length-n view of a buffer of the
selected class, popping the class cache or constructing a fresh
class-sized buffer when the cache is empty, and bumps the class get
counter and totalGet. -/
def Get (p : BytePool) (length : Int) : GoSlice × BytePool :=
  if length ≤ 0 then (GoSlice.nil, p)
  else
    let p := { p with recentLengths := p.recentLengths.Push length }
    if p.maxPoolSize < length then
      (GoSlice.make length, { p with discardedCount := p.discardedCount + 1 })
    else
      let size := p.findBestSize length
      if size ∈ p.sizes then
        let st := p.stats size
        let p :=
          { p with
            stats := fun c => if c = size then ⟨st.Get + 1, st.Put⟩ else p.stats c
            totalGet := p.totalGet + 1 }
        match p.pools size with
        | [] => ({ length := length, capacity := (GoSlice.make size).capacity }, p)
        | buf :: rest =>
            ({ length := length, capacity := buf.capacity },
             { p with pools := fun c => if c = size then rest else p.pools c })
      else (GoSlice.make length, p)

/-- Put: returns the updated pool state.
Mirrors pool.go: no-op on nil or zero capacity; discardedCount above
maxPoolSize; if the capacity matches a configured class, reslice to
full capacity, store in that class's cache and bump the class put
counter and totalPut; otherwise silently drop. -/
def Put (p : BytePool) (buf : GoSlice) : BytePool :=
  if buf.capacity = 0 then p
  else
    let capacity := buf.capacity
    if p.maxPoolSize < capacity then
      { p with discardedCount := p.discardedCount + 1 }
    else if capacity ∈ p.sizes then
      let st := p.stats capacity
      { p with
        stats := fun c => if c = capacity then ⟨st.Get, st.Put + 1⟩ else p.stats c
        totalPut := p.totalPut + 1
        pools := fun c =>
          if c = capacity then { length := capacity, capacity := buf.capacity } :: p.pools c
          else p.pools c }
    else p

/-- GetAvailableSizes: a copy of the configured class list. -/
def GetAvailableSizes (p : BytePool) : List Int := p.sizes

/-- GetDiscardedCount. -/
def GetDiscardedCount (p : BytePool) : Int := p.discardedCount

end BytePool

/-! ## Reference-counted buffer (buffer.go) -/

/-- Buffer: the reference-counted handle of buffer.go.  The atomic
pointer cell is an optional slice; the int32 reference counter is an
Int.  The hand-off that Release performs via pools.Put is returned
explicitly as an optional slice so that theorems can count Put
invocations. -/
structure Buffer where
  buf : Option GoSlice
  refCount : Int
  deriving DecidableEq, Repr

namespace Buffer

/-- NewBuffer: reference count 1, cell holding the given data. -/
def NewBuffer (data : GoSlice) : Buffer := { buf := some data, refCount := 1 }

/-- Retain: increment the reference count. -/
def Retain (b : Buffer) : Buffer := { b with refCount := b.refCount + 1 }

/-- Release: decrement the reference count; exactly when the new count
is zero, swap the cell to empty, and if it held a buffer hand that
buffer to the owning pool's Put.  The handed buffer (the argument of
the pools.Put call, if the call happens) is the second component. -/
def Release (b : Buffer) : Buffer × Option GoSlice :=
  let rc := b.refCount - 1
  if rc = 0 then
    match b.buf with
    | some data => ({ buf := none, refCount := rc }, some data)
    | none => ({ buf := none, refCount := rc }, none)
  else
    ({ b with refCount := rc }, none)

/-- The release closure returned by Bytes: either the no-op closure
returned when the cell is empty, or the Release method itself. -/
inductive ReleaseFn where
  | noop
  | release
  deriving DecidableEq, Repr

/-- Running a release closure on the handle it was taken from. -/
def runReleaseFn : ReleaseFn → Buffer → Buffer × Option GoSlice
  | .noop, b => (b, none)
  | .release, b => b.Release

/-- Bytes: Retain, then read the cell; when empty return nil and a
no-op closure, otherwise the contents and the Release method. -/
def Bytes (b : Buffer) : (Option GoSlice × ReleaseFn) × Buffer :=
  let b := b.Retain
  match b.buf with
  | none => ((none, .noop), b)
  | some data => ((some data, .release), b)

/-- Modelled from the spec: Buffer.RefCount is documented in the
repository README as a method of Buffer returning the current
reference count as an int32 diagnostic snapshot, but no such method is
present in buffer.go; it is a pure read of the atomic counter. -/
def RefCount (b : Buffer) : Int := b.refCount

/-- Apply n Retain calls. -/
def retainN (b : Buffer) (n : Nat) : Buffer :=
  match n with
  | 0 => b
  | n + 1 => (retainN b n).Retain

/-- Apply n Release calls, collecting the buffers handed to the
owning pool's Put in order. -/
def releaseN (b : Buffer) (n : Nat) : Buffer × List GoSlice :=
  match n with
  | 0 => (b, [])
  | n + 1 =>
      let (b1, handed) := releaseN b n
      let (b2, h) := b1.Release
      (b2, handed ++ h.toList)

end Buffer

/-- GetBuffer: acquire a slice from the pool and wrap it in a fresh
handle with reference count 1. -/
def BytePool.GetBuffer (p : BytePool) (length : Int) : Buffer × BytePool :=
  let (buf, p) := p.Get length
  (Buffer.NewBuffer buf, p)

/-- Invariant of every reachable pool state: the class list is sorted
ascending, non-empty and positive, maxPoolSize is its last element,
and every buffer cached under a class key has exactly that capacity
(established by NewPools, preserved by Get and Put). -/
structure PoolInv (p : BytePool) : Prop where
  sorted : p.sizes.Sorted (· ≤ ·)
  nonempty : p.sizes ≠ []
  positive : ∀ s ∈ p.sizes, 0 < s
  maxEq : p.maxPoolSize = p.sizes.getLastD 0
  cacheCap : ∀ c : Int, ∀ b ∈ p.pools c, b.capacity = c

/-- A small concrete pool state with classes 128 and 256 and empty
caches, as produced by NewPools on the list [128, 256]; used to
evaluate the pool theorems on concrete inputs. -/
def examplePool : BytePool :=
  { pools := fun _ => []
    stats := fun _ => ⟨0, 0⟩
    sizes := [128, 256]
    sizesLen := 2
    discardedCount := 0
    maxPoolSize := 256
    recentLengths := RingQueue.new Int 256
    totalGet := 0
    totalPut := 0 }

/-- An abstract step on a handle: one Retain call or one Release
call.  Used to relate RefCount to the operation history. -/
inductive BufOp where
  | retain
  | release
  deriving DecidableEq, Repr

/-- Apply a sequence of Retain and Release calls to a handle
(discarding the hand-off outputs of the releases). -/
def applyOps (b : Buffer) : List BufOp → Buffer
  | [] => b
  | BufOp.retain :: ops => applyOps b.Retain ops
  | BufOp.release :: ops => applyOps b.Release.1 ops

/-! ## Helper lemmas: lock-free ring queue -/

namespace RingQueue

variable {α : Type}

theorem pushAll_nil (rq : RingQueue α) : rq.pushAll [] = rq := rfl

theorem pushAll_cons (rq : RingQueue α) (v : α) (vs : List α) :
    rq.pushAll (v :: vs) = (rq.Push v).pushAll vs := rfl

theorem pushAll_append (rq : RingQueue α) (vs ws : List α) :
    rq.pushAll (vs ++ ws) = (rq.pushAll vs).pushAll ws := by
  simp [pushAll, List.foldl_append]

theorem pushAll_writePos (rq : RingQueue α) (vs : List α) :
    (rq.pushAll vs).writePos = rq.writePos + vs.length := by
  induction vs generalizing rq with
  | nil => simp [pushAll]
  | cons v vs ih =>
      rw [pushAll_cons, ih]
      simp [Push]
      omega

theorem pushAll_size (rq : RingQueue α) (vs : List α) :
    (rq.pushAll vs).size = rq.size := by
  induction vs generalizing rq with
  | nil => simp [pushAll]
  | cons v vs ih => rw [pushAll_cons, ih]; rfl

end RingQueue

/-- Arithmetic helper: when a + 1 is not a multiple of C, its residue is
the successor of the residue of a. -/
theorem succ_mod_of_mod_ne_zero (a C : Nat) (hC : 0 < C) (h : (a + 1) % C ≠ 0) :
    (a + 1) % C = a % C + 1 := by
  by_cases hC1 : C = 1
  · subst hC1; omega
  · have h2 : 1 < C := by omega
    have hm : a % C < C := Nat.mod_lt _ hC
    rcases Nat.lt_or_ge (a % C + 1) C with hlt | hge
    · rw [Nat.add_mod, Nat.mod_eq_of_lt h2, Nat.mod_eq_of_lt hlt]
    · exfalso
      apply h
      have heq : a % C + 1 = C := by omega
      rw [Nat.add_mod, Nat.mod_eq_of_lt h2, heq, Nat.mod_self]

namespace RingQueue

/-- Slot characterization: after pushing vs into a fresh queue of
positive size C, slot s holds the most recently pushed value whose
push index is congruent to s modulo C, and the zero value if no push
ever hit the slot. -/
theorem pushAll_new_data {α : Type} [Inhabited α] (C : Nat) (hC : 0 < C)
    (vs : List α) (s : Nat) (hs : s < C) :
    ((RingQueue.new α C).pushAll vs).data s =
      if s < vs.length then
        vs.getD (vs.length - 1 - ((vs.length - 1 - s) % C)) default
      else default := by
  induction vs using List.reverseRecOn with
  | nil => simp [pushAll, new]
  | append_singleton ws v ih =>
      rw [pushAll_append, pushAll_cons, pushAll_nil]
      have hw : ((RingQueue.new α C).pushAll ws).writePos = ws.length := by
        rw [pushAll_writePos]; simp [new]
      have hsz : ((RingQueue.new α C).pushAll ws).size = C := by
        rw [pushAll_size]; rfl
      simp only [Push, hw, hsz, List.length_append, List.length_singleton]
      by_cases hcase : s = ws.length % C
      · rw [if_pos hcase]
        have hle : ws.length % C ≤ ws.length := Nat.mod_le _ _
        have hcond : s < ws.length + 1 := by omega
        rw [if_pos hcond]
        have hdm := Nat.div_add_mod ws.length C
        have hzero : (ws.length - s) % C = 0 := by
          have hsub : ws.length - s = C * (ws.length / C) := by omega
          rw [hsub, Nat.mul_mod_right]
        have hidx : ws.length + 1 - 1 - ((ws.length + 1 - 1 - s) % C) = ws.length := by
          simp only [Nat.add_sub_cancel]
          rw [hzero]
          omega
        rw [hidx, List.getD_append_right ws [v] default ws.length (le_refl _)]
        simp
      · rw [if_neg hcase]
        rcases Nat.lt_or_ge s ws.length with hlt | hge
        · have hcond : s < ws.length + 1 := by omega
          rw [if_pos hcond, ih]
          rw [if_pos hlt]
          have ha : ws.length - s = (ws.length - 1 - s) + 1 := by omega
          have hnz : ((ws.length - 1 - s) + 1) % C ≠ 0 := by
            intro h0
            have hdvd : C ∣ ((ws.length - 1 - s) + 1) := Nat.dvd_iff_mod_eq_zero.mpr h0
            rcases hdvd with ⟨m, hm⟩
            have hlen : ws.length = s + C * m := by omega
            have hms : ws.length % C = s := by
              rw [hlen, Nat.add_mul_mod_self_left, Nat.mod_eq_of_lt hs]
            exact hcase hms.symm
          have hsucc := succ_mod_of_mod_ne_zero (ws.length - 1 - s) C hC hnz
          have hmodlt : (ws.length - 1 - s) % C < C := Nat.mod_lt _ hC
          have hidx : ws.length + 1 - 1 - ((ws.length + 1 - 1 - s) % C) =
              ws.length - 1 - ((ws.length - 1 - s) % C) := by
            simp only [Nat.add_sub_cancel]
            rw [ha, hsucc]
            omega
          rw [hidx]
          have hidxlt : ws.length - 1 - ((ws.length - 1 - s) % C) < ws.length := by omega
          rw [List.getD_append ws [v] default _ hidxlt]
        · have hslen : ¬ s < ws.length + 1 := by
            intro hcon
            have : s = ws.length := by omega
            apply hcase
            rw [this, Nat.mod_eq_of_lt]
            omega
          rw [if_neg hslen, ih, if_neg (by omega)]

end RingQueue

namespace RingQueue

/-- Snapshot after k sequential pushes into a fresh queue of positive
size C: the whole sequence when k is at most C, otherwise the last C
values in push order. -/
theorem Bytes_pushAll_new {α : Type} [Inhabited α] (C : Nat) (hC : 0 < C)
    (vs : List α) :
    ((RingQueue.new α C).pushAll vs).Bytes =
      if vs.length ≤ C then vs else vs.drop (vs.length - C) := by
  have hw : ((RingQueue.new α C).pushAll vs).writePos = vs.length := by
    rw [pushAll_writePos]; simp [new]
  have hsz : ((RingQueue.new α C).pushAll vs).size = C := by
    rw [pushAll_size]; rfl
  simp only [Bytes, hw, hsz]
  by_cases h0 : vs.length = 0
  · rw [if_pos h0]
    have hnil : vs = [] := List.eq_nil_of_length_eq_zero h0
    rw [if_pos (by omega), hnil]
  · rw [if_neg h0]
    rcases Nat.lt_or_ge C vs.length with hCk | hkC
    · -- wrapped: vs.length > C
      rw [if_neg (by omega), if_neg (by omega)]
      have hlen2 : (vs.drop (vs.length - C)).length = C := by
        rw [List.length_drop]; omega
      apply List.ext_getElem
      · simp [hlen2]
      · intro i h1 h2
        have hiC : i < C := by simpa using h1
        rw [List.getElem_map, List.getElem_range]
        have hsC : (vs.length % C + i) % C < C := Nat.mod_lt _ hC
        rw [pushAll_new_data C hC vs _ hsC]
        rw [if_pos (by omega)]
        set k := vs.length with hk
        set s := (k % C + i) % C with hsdef
        have hq : 1 ≤ k / C := (Nat.one_le_div_iff hC).mpr (by omega)
        obtain ⟨q', hq'⟩ : ∃ q', k / C = q' + 1 := ⟨k / C - 1, by omega⟩
        have hdm := Nat.div_add_mod k C
        rw [hq', Nat.mul_succ] at hdm
        have hr0 : k % C < C := Nat.mod_lt _ hC
        have hmodval : (k - 1 - s) % C = C - 1 - i := by
          rcases Nat.lt_or_ge (k % C + i) C with hA | hB
          · have hsval : s = k % C + i := by
              rw [hsdef, Nat.mod_eq_of_lt hA]
            have hkds : k - 1 - s = C * q' + (C - 1 - i) := by omega
            rw [hkds, Nat.mul_add_mod, Nat.mod_eq_of_lt (by omega)]
          · have hsval : s = k % C + i - C := by
              rw [hsdef, Nat.mod_eq_sub_mod hB, Nat.mod_eq_of_lt (by omega)]
            have hkds : k - 1 - s = C * (q' + 1) + (C - 1 - i) := by
              rw [Nat.mul_succ]
              omega
            rw [hkds, Nat.mul_add_mod, Nat.mod_eq_of_lt (by omega)]
        rw [hmodval]
        have hidx : k - 1 - (C - 1 - i) = k - C + i := by omega
        rw [hidx, List.getD_eq_getElem vs default (by omega : k - C + i < vs.length)]
        rw [List.getElem_drop]
    · -- not wrapped: vs.length ≤ C
      rw [if_pos hkC, if_pos hkC]
      apply List.ext_getElem
      · simp
      · intro i h1 h2
        have hik : i < vs.length := by simpa using h1
        rw [List.getElem_map, List.getElem_range]
        rw [pushAll_new_data C hC vs i (by omega)]
        rw [if_pos hik]
        have hmod : (vs.length - 1 - i) % C = vs.length - 1 - i :=
          Nat.mod_eq_of_lt (by omega)
        rw [hmod]
        have hidx : vs.length - 1 - (vs.length - 1 - i) = i := by omega
        rw [hidx, List.getD_eq_getElem vs default hik]

end RingQueue

/-- Arithmetic helper: adding one inside or outside a residue is the
same. -/
theorem mod_add_one_mod (a C : Nat) (hC : 0 < C) : (a % C + 1) % C = (a + 1) % C := by
  conv_rhs => rw [Nat.add_mod]
  by_cases h1 : C = 1
  · subst h1; simp
  · rw [Nat.mod_eq_of_lt (by omega : 1 < C)]

namespace LockedRingQueue

theorem locked_pushAll_cons (lrq : LockedRingQueue α) (v : α) (vs : List α) :
    lrq.pushAll (v :: vs) = (lrq.Push v).pushAll vs := rfl

theorem locked_pushAll_nil (lrq : LockedRingQueue α) : lrq.pushAll [] = lrq := rfl

theorem locked_pushAll_append (lrq : LockedRingQueue α) (vs ws : List α) :
    lrq.pushAll (vs ++ ws) = (lrq.pushAll vs).pushAll ws := by
  simp [pushAll, List.foldl_append]

/-- After pushing the same sequence into a fresh mutex-guarded queue
and a fresh lock-free queue of the same positive size, the
mutex-guarded state is determined: its count is the number of live
elements, its cursors are the push count modulo the size, and its
storage agrees with the lock-free storage slot for slot. -/
theorem pushAll_new_state {α : Type} [Inhabited α] (C : Nat) (hC : 0 < C)
    (vs : List α) :
    ((LockedRingQueue.new α C).pushAll vs).size = C ∧
    ((LockedRingQueue.new α C).pushAll vs).count = min vs.length C ∧
    ((LockedRingQueue.new α C).pushAll vs).writePos = vs.length % C ∧
    ((LockedRingQueue.new α C).pushAll vs).readPos =
      (if vs.length ≤ C then 0 else vs.length % C) ∧
    ((LockedRingQueue.new α C).pushAll vs).data =
      ((RingQueue.new α C).pushAll vs).data := by
  induction vs using List.reverseRecOn with
  | nil =>
      refine ⟨rfl, by simp [pushAll, new], by simp [pushAll, new], ?_, rfl⟩
      simp [pushAll, new]
  | append_singleton ws v ih =>
      obtain ⟨hsz, hcount, hwp, hrp, hdata⟩ := ih
      rw [locked_pushAll_append, locked_pushAll_cons, locked_pushAll_nil]
      rw [RingQueue.pushAll_append, RingQueue.pushAll_cons, RingQueue.pushAll_nil]
      have hRw : ((RingQueue.new α C).pushAll ws).writePos = ws.length := by
        rw [RingQueue.pushAll_writePos]; simp [RingQueue.new]
      have hRsz : ((RingQueue.new α C).pushAll ws).size = C := by
        rw [RingQueue.pushAll_size]; rfl
      set L := (LockedRingQueue.new α C).pushAll ws with hL
      set R := (RingQueue.new α C).pushAll ws with hR
      have hdata2 : (fun s => if s = ws.length % C then v else L.data s) =
          (R.Push v).data := by
        funext s
        simp only [RingQueue.Push, hRw, hRsz, hdata]
      simp only [List.length_append, List.length_singleton]
      by_cases hfull : ws.length < C
      · have hcond : ws.length ⊓ C < C := by omega
        simp only [Push, hsz, hwp, hcount, hrp]
        rw [if_pos hcond]
        refine ⟨rfl, ?_, ?_, ?_, hdata2⟩
        · show ws.length ⊓ C + 1 = (ws.length + 1) ⊓ C
          omega
        · show (ws.length % C + 1) % C = (ws.length + 1) % C
          exact mod_add_one_mod _ _ hC
        · show (if ws.length ≤ C then 0 else ws.length % C) =
            (if ws.length + 1 ≤ C then 0 else (ws.length + 1) % C)
          rw [if_pos (by omega : ws.length ≤ C), if_pos (by omega : ws.length + 1 ≤ C)]
      · have hcond : ¬ ws.length ⊓ C < C := by omega
        simp only [Push, hsz, hwp, hcount, hrp]
        rw [if_neg hcond]
        refine ⟨rfl, ?_, ?_, ?_, hdata2⟩
        · show ws.length ⊓ C = (ws.length + 1) ⊓ C
          omega
        · show (ws.length % C + 1) % C = (ws.length + 1) % C
          exact mod_add_one_mod _ _ hC
        · show ((if ws.length ≤ C then 0 else ws.length % C) + 1) % C =
            (if ws.length + 1 ≤ C then 0 else (ws.length + 1) % C)
          rw [if_neg (by omega : ¬ ws.length + 1 ≤ C)]
          by_cases hCeq : ws.length ≤ C
          · have hwsC : ws.length = C := by omega
            rw [if_pos hCeq, hwsC, Nat.add_mod_left C 1]
          · rw [if_neg hCeq]
            exact mod_add_one_mod _ _ hC

end LockedRingQueue

namespace LockedRingQueue

/-- The snapshot of the mutex-guarded queue agrees with the snapshot of
the lock-free queue after the same sequence of sequential pushes. -/
theorem Bytes_pushAll_eq_ring {α : Type} [Inhabited α] (C : Nat) (hC : 0 < C)
    (vs : List α) :
    ((LockedRingQueue.new α C).pushAll vs).Bytes =
      ((RingQueue.new α C).pushAll vs).Bytes := by
  obtain ⟨hsz, hcount, hwp, hrp, hdata⟩ := pushAll_new_state C hC vs
  have hRw : ((RingQueue.new α C).pushAll vs).writePos = vs.length := by
    rw [RingQueue.pushAll_writePos]; simp [RingQueue.new]
  have hRsz : ((RingQueue.new α C).pushAll vs).size = C := by
    rw [RingQueue.pushAll_size]; rfl
  simp only [Bytes, RingQueue.Bytes, hsz, hcount, hrp, hdata, hRw, hRsz]
  by_cases h0 : vs.length = 0
  · rw [if_pos (by omega : vs.length ⊓ C = 0), if_pos h0]
  · rcases Nat.lt_or_ge C vs.length with hCk | hkC
    · rw [if_neg (by omega : ¬ vs.length ⊓ C = 0), if_neg h0,
        if_neg (by omega : ¬ vs.length ≤ C), if_neg (by omega : ¬ vs.length ≤ C)]
      have hmin : vs.length ⊓ C = C := by omega
      rw [hmin]
    · rw [if_neg (by omega : ¬ vs.length ⊓ C = 0), if_neg h0,
        if_pos hkC, if_pos hkC]
      have hmin : vs.length ⊓ C = vs.length := by omega
      rw [hmin]
      apply List.ext_getElem
      · simp
      · intro i h1 h2
        have hik : i < vs.length := by simpa using h1
        rw [List.getElem_map, List.getElem_map]
        simp only [List.getElem_range]
        have hidx : (0 + i) % C = i := by
          rw [Nat.zero_add]
          exact Nat.mod_eq_of_lt (by omega)
        rw [hidx]

end LockedRingQueue

/-! ## Claims about the statistics rings -/

/-- Claim C5: for every positive capacity C and every sequence of k
values pushed in order into a fresh lock-free RingQueue of capacity C,
the snapshot Bytes returns exactly the last min(k, C) pushed values in
oldest-to-newest order: the whole sequence when k is at most C, and
the final C values (those from position k - C onward, i.e. the C slots
starting at position k mod C, wrapping once) when k exceeds C. -/
theorem ringQueue_snapshot_is_last_values {α : Type} [Inhabited α]
    (C : Nat) (hC : 0 < C) (vs : List α) :
    ((RingQueue.new α C).pushAll vs).Bytes =
      if vs.length ≤ C then vs else vs.drop (vs.length - C) :=
  RingQueue.Bytes_pushAll_new C hC vs

/-- Witness for C5 at C = 2 and the pushes 10, 20, 30. -/
theorem ringQueue_snapshot_is_last_values_witness :
    0 < 2 ∧ ((RingQueue.new Int 2).pushAll [10, 20, 30]).Bytes = [20, 30] := by
  refine ⟨by decide, ?_⟩
  have h := ringQueue_snapshot_is_last_values 2 (by decide) ([10, 20, 30] : List Int)
  rw [h]
  decide

set_option maxRecDepth 4000 in
/-- Claim C6: the mutex-guarded ring is a drop-in substitute for the
lock-free ring: for every positive capacity and every sequence of
sequential pushes applied to both fresh queues, Bytes, Len, Cap,
IsFull and IsEmpty agree (the universal quantification over the pushed
sequence covers every prefix); and concretely, with capacity 256,
pushing the integers 1 to 260 in order yields the mutex-backed
snapshot 5, 6, ..., 260 (256 values, oldest first). -/
theorem lockedRingQueue_matches_lockFree :
    (∀ (α : Type) [Inhabited α] (C : Nat), 0 < C → ∀ (vs : List α),
      ((LockedRingQueue.new α C).pushAll vs).Bytes
          = ((RingQueue.new α C).pushAll vs).Bytes ∧
      ((LockedRingQueue.new α C).pushAll vs).Len
          = ((RingQueue.new α C).pushAll vs).Len ∧
      ((LockedRingQueue.new α C).pushAll vs).Cap
          = ((RingQueue.new α C).pushAll vs).Cap ∧
      ((LockedRingQueue.new α C).pushAll vs).IsFull
          = ((RingQueue.new α C).pushAll vs).IsFull ∧
      ((LockedRingQueue.new α C).pushAll vs).IsEmpty
          = ((RingQueue.new α C).pushAll vs).IsEmpty) ∧
    ((LockedRingQueue.new Int 256).pushAll
        ((List.range 260).map (fun i => (i : Int) + 1))).Bytes
      = (List.range 256).map (fun i => (i : Int) + 5) := by
  constructor
  · intro α inst C hC vs
    obtain ⟨hsz, hcount, hwp, hrp, hdata⟩ :=
      LockedRingQueue.pushAll_new_state C hC vs
    have hRw : ((RingQueue.new α C).pushAll vs).writePos = vs.length := by
      rw [RingQueue.pushAll_writePos]; simp [RingQueue.new]
    have hRsz : ((RingQueue.new α C).pushAll vs).size = C := by
      rw [RingQueue.pushAll_size]; rfl
    refine ⟨LockedRingQueue.Bytes_pushAll_eq_ring C hC vs, ?_, ?_, ?_, ?_⟩
    · simp only [LockedRingQueue.Len, RingQueue.Len, hcount, hRw, hRsz]
      split
      · omega
      · omega
    · simp only [LockedRingQueue.Cap, RingQueue.Cap, hsz, hRsz]
    · simp only [LockedRingQueue.IsFull, RingQueue.IsFull, hcount, hsz, hRw, hRsz]
      exact decide_eq_decide.mpr (by omega)
    · simp only [LockedRingQueue.IsEmpty, RingQueue.IsEmpty, hcount, hRw]
      exact decide_eq_decide.mpr (by omega)
  · have h1 := LockedRingQueue.Bytes_pushAll_eq_ring 256 (by decide : (0:Nat) < 256)
      ((List.range 260).map (fun i => (i : Int) + 1))
    have h2 := RingQueue.Bytes_pushAll_new 256 (by decide : (0:Nat) < 256)
      ((List.range 260).map (fun i => (i : Int) + 1))
    rw [h1, h2]
    decide

/-- Witness for C6 at capacity 3 and the pushes 1, 2, 3, 4. -/
theorem lockedRingQueue_matches_lockFree_witness :
    0 < 3 ∧ ((LockedRingQueue.new Int 3).pushAll [1, 2, 3, 4]).Bytes
        = ((RingQueue.new Int 3).pushAll [1, 2, 3, 4]).Bytes :=
  ⟨by decide, (lockedRingQueue_matches_lockFree.1 Int 3 (by decide) [1, 2, 3, 4]).1⟩

/-! ## Helper lemmas: reference-counted buffer -/

namespace Buffer

theorem retainN_refCount (b : Buffer) (n : Nat) :
    (b.retainN n).refCount = b.refCount + n := by
  induction n with
  | zero => simp [retainN]
  | succ n ih => simp [retainN, Retain, ih]; ring

theorem retainN_buf (b : Buffer) (n : Nat) : (b.retainN n).buf = b.buf := by
  induction n with
  | zero => rfl
  | succ n ih => simp [retainN, Retain, ih]

theorem releaseN_add (b : Buffer) (m n : Nat) :
    b.releaseN (m + n) =
      ((b.releaseN m).1.releaseN n |>.1,
       (b.releaseN m).2 ++ ((b.releaseN m).1.releaseN n).2) := by
  induction n with
  | zero => simp [releaseN]
  | succ n ih =>
      show b.releaseN (m + n + 1) = _
      simp only [releaseN, ih]
      simp [List.append_assoc]

/-- While more references are outstanding than releases performed, no
release hands the buffer off and the count just decreases. -/
theorem releaseN_of_lt (b : Buffer) (k : Nat) (h : (k : Int) < b.refCount) :
    b.releaseN k = ({ b with refCount := b.refCount - k }, []) := by
  induction k with
  | zero => simp [releaseN]
  | succ k ih =>
      have hk : (k : Int) < b.refCount := by push_cast at h ⊢; omega
      simp only [releaseN, ih hk]
      have hne : b.refCount - k - 1 ≠ 0 := by push_cast at h; omega
      simp [Release, hne]
      ring

/-- Once the count is non-positive and the cell is empty, further
releases only drive the count further negative. -/
theorem releaseN_of_nonpos (b : Buffer) (k : Nat) (h : b.refCount ≤ 0)
    (hb : b.buf = none) :
    b.releaseN k = ({ buf := none, refCount := b.refCount - k }, []) := by
  induction k with
  | zero =>
      cases b
      simp_all [releaseN]
  | succ k ih =>
      simp only [releaseN, ih]
      have hne : b.refCount - k - 1 ≠ 0 := by omega
      simp [Release, hne]
      ring

end Buffer

/-! ## Claims about the reference-counted buffer -/

/-- Claim C1: on a handle created with reference count 1, after N - 1
Retain calls (bringing the count to N) and then release calls in
sequence: the first N - 1 releases hand nothing to the pool and leave
the cell full, the Nth release (the 1 to 0 transition) hands the
buffer to the owning pool's Put exactly once and empties the cell, and
every further release only drives the count negative without a second
hand-off, so across N + M releases the hand-off list is exactly one
buffer. -/
theorem buffer_handoff_exactly_once (N : Nat) (hN : 1 ≤ N) (data : GoSlice) :
    (∀ k, k < N →
      ((Buffer.NewBuffer data).retainN (N - 1) |>.releaseN k).2 = [] ∧
      ((Buffer.NewBuffer data).retainN (N - 1) |>.releaseN k).1.refCount = (N : Int) - k ∧
      ((Buffer.NewBuffer data).retainN (N - 1) |>.releaseN k).1.buf = some data) ∧
    (∀ M : Nat,
      ((Buffer.NewBuffer data).retainN (N - 1) |>.releaseN (N + M)).2 = [data] ∧
      ((Buffer.NewBuffer data).retainN (N - 1) |>.releaseN (N + M)).1.refCount = -(M : Int) ∧
      ((Buffer.NewBuffer data).retainN (N - 1) |>.releaseN (N + M)).1.buf = none) := by
  set b1 := (Buffer.NewBuffer data).retainN (N - 1) with hb1
  have hrc : b1.refCount = (N : Int) := by
    rw [hb1, Buffer.retainN_refCount]
    simp [Buffer.NewBuffer]
    omega
  have hbuf : b1.buf = some data := by
    rw [hb1, Buffer.retainN_buf]
    rfl
  constructor
  · intro k hk
    have hlt : (k : Int) < b1.refCount := by rw [hrc]; omega
    rw [Buffer.releaseN_of_lt b1 k hlt]
    refine ⟨rfl, ?_, hbuf⟩
    rw [hrc]
  · intro M
    have hsplit : N + M = (N - 1) + 1 + M := by omega
    rw [hsplit, Buffer.releaseN_add, Buffer.releaseN_add]
    have hlt : ((N - 1 : Nat) : Int) < b1.refCount := by rw [hrc]; omega
    rw [Buffer.releaseN_of_lt b1 (N - 1) hlt]
    have hone : ({ b1 with refCount := b1.refCount - (N - 1 : Nat) } : Buffer).releaseN 1 =
        ({ buf := none, refCount := 0 }, [data]) := by
      have hrc1 : b1.refCount - ((N - 1 : Nat) : Int) = 1 := by
        rw [hrc]; omega
      simp only [Buffer.releaseN, Buffer.Release]
      rw [hbuf]
      simp [hrc1]
    rw [hone]
    rw [Buffer.releaseN_of_nonpos _ M (by simp) rfl]
    refine ⟨rfl, ?_, rfl⟩
    simp

/-- Witness for C1 at N = 3 (two Retains, then five Releases): exactly
one hand-off, happening at the third release, and a count of -2 after
five releases. -/
theorem buffer_handoff_exactly_once_witness :
    1 ≤ 3 ∧
    ((Buffer.NewBuffer ⟨4, 4⟩).retainN 2 |>.releaseN 2).2 = [] ∧
    ((Buffer.NewBuffer ⟨4, 4⟩).retainN 2 |>.releaseN 3).2 = [⟨4, 4⟩] ∧
    ((Buffer.NewBuffer ⟨4, 4⟩).retainN 2 |>.releaseN 5).2 = [⟨4, 4⟩] ∧
    ((Buffer.NewBuffer ⟨4, 4⟩).retainN 2 |>.releaseN 5).1.refCount = -2 := by
  have h := buffer_handoff_exactly_once 3 (by decide) ⟨4, 4⟩
  refine ⟨by decide, ?_, ?_, ?_, ?_⟩
  · exact (h.1 2 (by decide)).1
  · exact (h.2 0).1
  · exact (h.2 2).1
  · have := (h.2 2).2.1
    simpa using this

/-- Claim C7 as stated is false: for a handle whose cell has already
been emptied (reachable by releasing a fresh handle once), Bytes still
performs the Retain but returns the no-op closure, so running the
closure does not restore the count: it stays one above the value
before Bytes. -/
theorem buffer_bytes_counterexample :
    (Buffer.runReleaseFn
        ((((Buffer.NewBuffer ⟨4, 4⟩).Release.1).Bytes).1.2)
        ((((Buffer.NewBuffer ⟨4, 4⟩).Release.1).Bytes).2)).1.refCount
      ≠ ((Buffer.NewBuffer ⟨4, 4⟩).Release.1).refCount := by decide

/-- Claim C7 (amended): for every handle whose storage cell is
non-empty, Bytes performs one Retain and returns the cell contents
together with the Release method as the release closure, so running
the returned closure once calls Release exactly once and restores the
reference count to its value before Bytes.  (For an emptied handle the
code instead returns nil and a no-op closure, leaving the count one
higher.) -/
theorem buffer_bytes_retain_release_balanced (b : Buffer) (h : b.buf.isSome) :
    ((b.Bytes).2).refCount = b.refCount + 1 ∧
    (b.Bytes).1.2 = Buffer.ReleaseFn.release ∧
    (Buffer.runReleaseFn (b.Bytes).1.2 (b.Bytes).2).1.refCount = b.refCount := by
  cases hb : b.buf with
  | none => rw [hb] at h; simp at h
  | some d =>
      have hBytes : b.Bytes = ((some d, Buffer.ReleaseFn.release),
          { b with refCount := b.refCount + 1 }) := by
        simp [Buffer.Bytes, Buffer.Retain, hb]
      rw [hBytes]
      refine ⟨rfl, rfl, ?_⟩
      simp only [Buffer.runReleaseFn, Buffer.Release]
      by_cases hz : b.refCount + 1 - 1 = 0
      · rw [if_pos hz]
        rw [hb]
        simp
      · rw [if_neg hz]
        simp

/-- Witness for C7 (amended) on a fresh handle. -/
theorem buffer_bytes_retain_release_balanced_witness :
    ((Buffer.NewBuffer ⟨4, 4⟩).buf.isSome = true) ∧
    (Buffer.runReleaseFn (((Buffer.NewBuffer ⟨4, 4⟩).Bytes).1.2)
        (((Buffer.NewBuffer ⟨4, 4⟩).Bytes).2)).1.refCount
      = (Buffer.NewBuffer ⟨4, 4⟩).refCount :=
  ⟨by decide,
   (buffer_bytes_retain_release_balanced (Buffer.NewBuffer ⟨4, 4⟩) (by decide)).2.2⟩

namespace Buffer

theorem Release_fst_refCount (b : Buffer) :
    (b.Release).1.refCount = b.refCount - 1 := by
  simp only [Release]
  by_cases hz : b.refCount - 1 = 0
  · rw [if_pos hz]
    cases b.buf <;> rfl
  · rw [if_neg hz]

theorem applyOps_refCount (ops : List BufOp) (b : Buffer) :
    (applyOps b ops).refCount = b.refCount
      + ((ops.filter (fun op => op = BufOp.retain)).length : Int)
      - ((ops.filter (fun op => op = BufOp.release)).length : Int) := by
  induction ops generalizing b with
  | nil => simp [applyOps]
  | cons op ops ih =>
      cases op with
      | retain =>
          rw [show applyOps b (BufOp.retain :: ops) = applyOps b.Retain ops from rfl,
            ih]
          simp [Buffer.Retain, List.filter]
          ring
      | release =>
          rw [show applyOps b (BufOp.release :: ops) = applyOps b.Release.1 ops from rfl,
            ih]
          rw [Buffer.Release_fst_refCount]
          simp [List.filter]
          ring

end Buffer

/-- Claim C8: RefCount (modelled from the spec, see its definition)
returns the current reference count of the handle as an integer: after
any history of Retain and Release calls on a fresh handle it equals
one plus the number of Retains minus the number of Releases, and being
a pure read it changes no state (diagnostic snapshot, not a lock). -/
theorem buffer_refCount_diagnostic_snapshot (ops : List BufOp) (data : GoSlice) :
    (applyOps (Buffer.NewBuffer data) ops).RefCount =
      1 + ((ops.filter (fun op => op = BufOp.retain)).length : Int)
        - ((ops.filter (fun op => op = BufOp.release)).length : Int) := by
  rw [Buffer.RefCount, Buffer.applyOps_refCount]
  rfl

/-! ## Helper lemmas: size classes and the pool invariant -/

/-- The last element of a non-empty list is a member. -/
theorem getLastD_mem_of_ne_nil (l : List Int) (h : l ≠ []) : l.getLastD 0 ∈ l := by
  induction l with
  | nil => exact absurd rfl h
  | cons a rest ih =>
      cases rest with
      | nil => simp [List.getLastD]
      | cons b rest2 =>
          have hmem := ih (by simp)
          have hstep : ((a :: b :: rest2).getLastD 0) = ((b :: rest2).getLastD 0) := by
            simp [List.getLastD]
          rw [hstep]
          exact List.mem_cons_of_mem a hmem

/-- In a list sorted ascending, every member is bounded by the last
element. -/
theorem le_getLastD_of_sorted (l : List Int) (hs : l.Sorted (· ≤ ·)) :
    ∀ x ∈ l, x ≤ l.getLastD 0 := by
  induction l with
  | nil => intro x hx; cases hx
  | cons a rest ih =>
      rw [List.sorted_cons] at hs
      intro x hx
      cases rest with
      | nil =>
          simp at hx
          simp [hx, List.getLastD]
      | cons b rest2 =>
          have hstep : ((a :: b :: rest2).getLastD 0) = ((b :: rest2).getLastD 0) := by
            simp [List.getLastD]
          rw [hstep]
          rcases List.mem_cons.mp hx with hxa | hxrest
          · subst hxa
            exact le_trans (hs.1 b (by simp)) (ih hs.2 b (by simp))
          · exact ih hs.2 x hxrest

/-- The first hit of find? for the predicate n ≤ s on an ascending
list is the smallest member that is at least n. -/
theorem find?_le_sorted_spec (l : List Int) (hs : l.Sorted (· ≤ ·))
    (n c : Int) (h : l.find? (fun s => decide (n ≤ s)) = some c) :
    c ∈ l ∧ n ≤ c ∧ ∀ x ∈ l, n ≤ x → c ≤ x := by
  induction l with
  | nil => simp [List.find?] at h
  | cons a rest ih =>
      rw [List.sorted_cons] at hs
      by_cases hna : n ≤ a
      · rw [List.find?_cons_of_pos _ (by simpa using hna)] at h
        have hca : c = a := by
          injection h with h
          exact h.symm
        subst hca
        refine ⟨by simp, hna, ?_⟩
        intro x hx _
        rcases List.mem_cons.mp hx with hxa | hxrest
        · omega
        · exact hs.1 x hxrest
      · rw [List.find?_cons_of_neg _ (by simpa using hna)] at h
        obtain ⟨hmem, hnc, hmin⟩ := ih hs.2 h
        refine ⟨List.mem_cons_of_mem a hmem, hnc, ?_⟩
        intro x hx hnx
        rcases List.mem_cons.mp hx with hxa | hxrest
        · omega
        · exact hmin x hxrest hnx

namespace BytePool

/-- findBestSize under the pool invariant, for a request within the
largest class: it is the smallest configured class at least the
requested length, and in particular a configured class. -/
theorem findBestSize_spec (p : BytePool) (n : Int) (hp : PoolInv p)
    (hmax : n ≤ p.maxPoolSize) :
    p.findBestSize n ∈ p.sizes ∧ n ≤ p.findBestSize n ∧
      ∀ x ∈ p.sizes, n ≤ x → p.findBestSize n ≤ x := by
  unfold findBestSize
  cases hfind : p.sizes.find? (fun size => decide (n ≤ size)) with
  | some c => exact find?_le_sorted_spec p.sizes hp.sorted n c hfind
  | none =>
      exfalso
      rw [List.find?_eq_none] at hfind
      have hlast := getLastD_mem_of_ne_nil p.sizes hp.nonempty
      have h2 := hfind _ hlast
      simp only [decide_eq_true_eq] at h2
      rw [hp.maxEq] at hmax
      omega

/-- Under the invariant the largest class is positive. -/
theorem maxPoolSize_pos (p : BytePool) (hp : PoolInv p) : 0 < p.maxPoolSize := by
  rw [hp.maxEq]
  exact hp.positive _ (getLastD_mem_of_ne_nil p.sizes hp.nonempty)

/-- NewPools establishes the invariant whenever the supplied classes
are positive. -/
theorem PoolInv_NewPools (sizes : List Int) (p : BytePool)
    (hpos : ∀ s ∈ sizes, 0 < s) (h : NewPools sizes = some p) : PoolInv p := by
  unfold NewPools at h
  by_cases hlen : sizes.length < 1
  · rw [if_pos hlen] at h
    cases h
  · rw [if_neg hlen] at h
    injection h with h
    subst h
    have hperm := List.perm_insertionSort (· ≤ ·) sizes
    refine ⟨List.sorted_insertionSort (· ≤ ·) sizes, ?_, ?_, rfl, ?_⟩
    · show List.insertionSort (· ≤ ·) sizes ≠ []
      intro hnil
      have hl := hperm.length_eq
      rw [hnil] at hl
      simp at hl
      omega
    · show ∀ s ∈ List.insertionSort (· ≤ ·) sizes, 0 < s
      intro s hsmem
      exact hpos s (hperm.mem_iff.mp hsmem)
    · intro c b hb
      cases hb

end BytePool

/-- The example pool is exactly what NewPools builds from [128, 256]. -/
theorem newPools_examplePool : BytePool.NewPools [128, 256] = some examplePool := rfl

/-- The example pool satisfies the invariant. -/
theorem poolInv_examplePool : PoolInv examplePool := by
  refine ⟨?_, ?_, ?_, rfl, ?_⟩
  · simp [examplePool]
  · simp [examplePool]
  · intro s hs
    simp [examplePool] at hs
    rcases hs with h | h <;> omega
  · intro c b hb
    cases hb

/-! ## Claims about the tiered pool -/

/-- Claim C2: for every request length n with 0 < n and n at most the
largest configured class, Get returns a slice of length exactly n
whose capacity is the smallest configured class at least n (a
configured class, at least n, and below every other adequate class),
and increments that class's get counter and totalGet by one each. -/
theorem pool_get_serves_smallest_class (p : BytePool) (n : Int) (hp : PoolInv p)
    (h0 : 0 < n) (hmax : n ≤ p.maxPoolSize) :
    (p.Get n).1.length = n ∧
    ((p.Get n).1.capacity ∈ p.sizes ∧ n ≤ (p.Get n).1.capacity ∧
      ∀ x ∈ p.sizes, n ≤ x → (p.Get n).1.capacity ≤ x) ∧
    ((p.Get n).2.stats ((p.Get n).1.capacity)).Get
        = (p.stats ((p.Get n).1.capacity)).Get + 1 ∧
    (p.Get n).2.totalGet = p.totalGet + 1 := by
  obtain ⟨hmem, hge, hmin⟩ := BytePool.findBestSize_spec p n hp hmax
  have hnotmax : ¬ p.maxPoolSize < n := by omega
  unfold BytePool.Get
  rw [if_neg (by omega : ¬ n ≤ 0)]
  dsimp only
  rw [show ({ p with recentLengths := p.recentLengths.Push n } : BytePool).findBestSize n
      = p.findBestSize n from rfl]
  rw [if_neg hnotmax, if_pos hmem]
  cases hc : p.pools (p.findBestSize n) with
  | nil =>
      refine ⟨rfl, ⟨hmem, hge, hmin⟩, ?_, rfl⟩
      simp [GoSlice.make]
  | cons buf rest =>
      have hbc : buf.capacity = p.findBestSize n :=
        hp.cacheCap _ buf (by rw [hc]; exact List.mem_cons_self _ _)
      refine ⟨rfl, ?_, ?_, rfl⟩
      · show buf.capacity ∈ p.sizes ∧ n ≤ buf.capacity ∧
          ∀ x ∈ p.sizes, n ≤ x → buf.capacity ≤ x
        rw [hbc]
        exact ⟨hmem, hge, hmin⟩
      · simp [hbc]

/-- Witness for C2: on the example pool, Get 100 yields length 100,
capacity a configured class that is at least 100, and bumps totalGet. -/
theorem pool_get_serves_smallest_class_witness :
    (0 : Int) < 100 ∧ (100 : Int) ≤ examplePool.maxPoolSize ∧
    (examplePool.Get 100).1.length = 100 ∧
    (examplePool.Get 100).1.capacity ∈ examplePool.sizes ∧
    (100 : Int) ≤ (examplePool.Get 100).1.capacity ∧
    (examplePool.Get 100).2.totalGet = examplePool.totalGet + 1 := by
  have h := pool_get_serves_smallest_class examplePool 100 poolInv_examplePool
    (by decide) (by decide)
  exact ⟨by decide, by decide, h.1, h.2.1.1, h.2.1.2.1, h.2.2.2⟩

/-- Claim C3: for every request length beyond the largest class, Get
records the length in the statistics ring, increments discardedCount,
leaves totalGet and every per-class counter untouched, and returns a
fresh buffer of length and capacity exactly n; moreover the ring
records every positively sized request, pooled or discarded. -/
theorem pool_get_discarded_beyond_max (p : BytePool) (n : Int) (hp : PoolInv p)
    (hmax : p.maxPoolSize < n) :
    (p.Get n).1.length = n ∧
    (p.Get n).1.capacity = n ∧
    (p.Get n).2.recentLengths = p.recentLengths.Push n ∧
    (p.Get n).2.discardedCount = p.discardedCount + 1 ∧
    (p.Get n).2.totalGet = p.totalGet ∧
    (∀ c, (p.Get n).2.stats c = p.stats c) ∧
    (∀ m : Int, 0 < m → (p.Get m).2.recentLengths = p.recentLengths.Push m) := by
  have hpos := BytePool.maxPoolSize_pos p hp
  have hrec : ∀ m : Int, 0 < m → (p.Get m).2.recentLengths = p.recentLengths.Push m := by
    intro m hm
    unfold BytePool.Get
    rw [if_neg (by omega : ¬ m ≤ 0)]
    dsimp only
    rw [show ({ p with recentLengths := p.recentLengths.Push m } : BytePool).findBestSize m
        = p.findBestSize m from rfl]
    by_cases hm2 : p.maxPoolSize < m
    · rw [if_pos hm2]
    · rw [if_neg hm2]
      by_cases hmem : p.findBestSize m ∈ p.sizes
      · rw [if_pos hmem]
        cases hc : p.pools (p.findBestSize m) with
        | nil => rfl
        | cons buf rest => rfl
      · rw [if_neg hmem]
  refine ⟨?_, ?_, ?_, ?_, ?_, ?_, hrec⟩ <;>
    (unfold BytePool.Get
     rw [if_neg (by omega : ¬ n ≤ 0)]
     dsimp only
     rw [if_pos hmax]) <;>
    first
      | rfl
      | (intro c; rfl)

/-- Witness for C3: on the example pool, Get 300 is discarded. -/
theorem pool_get_discarded_beyond_max_witness :
    examplePool.maxPoolSize < 300 ∧
    (examplePool.Get 300).1.length = 300 ∧
    (examplePool.Get 300).1.capacity = 300 ∧
    (examplePool.Get 300).2.discardedCount = examplePool.discardedCount + 1 ∧
    (examplePool.Get 300).2.totalGet = examplePool.totalGet := by
  have h := pool_get_discarded_beyond_max examplePool 300 poolInv_examplePool (by decide)
  exact ⟨by decide, h.1, h.2.1, h.2.2.2.1, h.2.2.2.2.1⟩

/-- Claim C4: a Put whose buffer capacity matches no configured class
stores the buffer in no cache and leaves totalPut and every per-class
put counter unchanged; discardedCount is incremented exactly when the
capacity exceeds the largest class, and a non-matching capacity not
beyond the largest class (including a zero capacity) leaves the whole
pool state unchanged. -/
theorem pool_put_nonmatching_capacity (p : BytePool) (buf : GoSlice) (hp : PoolInv p)
    (hnm : buf.capacity ∉ p.sizes) :
    (∀ c, (p.Put buf).pools c = p.pools c) ∧
    (p.Put buf).totalPut = p.totalPut ∧
    (∀ c, (p.Put buf).stats c = p.stats c) ∧
    ((p.Put buf).discardedCount = p.discardedCount + 1 ↔ p.maxPoolSize < buf.capacity) ∧
    (¬ p.maxPoolSize < buf.capacity → p.Put buf = p) := by
  have hpos := BytePool.maxPoolSize_pos p hp
  by_cases hc0 : buf.capacity = 0
  · unfold BytePool.Put
    rw [if_pos hc0]
    refine ⟨fun c => rfl, rfl, fun c => rfl, ?_, fun h => rfl⟩
    constructor
    · intro h
      exfalso
      omega
    · intro h
      exfalso
      omega
  · by_cases hex : p.maxPoolSize < buf.capacity
    · unfold BytePool.Put
      rw [if_neg hc0]
      dsimp only
      rw [if_pos hex]
      refine ⟨fun c => rfl, rfl, fun c => rfl, ?_, fun h => absurd hex h⟩
      simp [hex]
    · unfold BytePool.Put
      rw [if_neg hc0]
      dsimp only
      rw [if_neg hex, if_neg hnm]
      refine ⟨fun c => rfl, rfl, fun c => rfl, ?_, fun _ => rfl⟩
      constructor
      · intro h
        exfalso
        omega
      · intro h
        exact absurd h hex

/-- Witness for C4: on the example pool, a capacity-64 buffer (64 is
no class) is dropped silently and the pool is unchanged. -/
theorem pool_put_nonmatching_capacity_witness :
    ((64 : Int) ∉ examplePool.sizes) ∧
    examplePool.Put ⟨64, 64⟩ = examplePool ∧
    (examplePool.Put ⟨64, 64⟩).totalPut = examplePool.totalPut := by
  have h := pool_put_nonmatching_capacity examplePool ⟨64, 64⟩ poolInv_examplePool
    (by decide)
  exact ⟨by decide, h.2.2.2.2 (by decide), h.2.1⟩

/-- Claim C9: pool construction fails (the Go code panics, modelled as
none) exactly on an empty size-class list, and succeeds on every
non-empty list. -/
theorem newPools_error_iff_empty (sizes : List Int) :
    BytePool.NewPools sizes = none ↔ sizes = [] := by
  unfold BytePool.NewPools
  cases sizes with
  | nil => simp
  | cons a rest => simp

/-- Claim C10: NewPools sorts a copy of the supplied list ascending
and is permutation invariant: permuted inputs build equal pools (hence
the same available sizes and the same class selection on every Get);
the stored class list is sorted ascending, GetAvailableSizes returns
it, it is a permutation of the input, and maxPoolSize is the maximum
supplied element.  (The model is pure, so the caller's list is never
mutated.) -/
theorem newPools_permutation_invariant :
    (∀ s1 s2 : List Int, s1.Perm s2 →
      BytePool.NewPools s1 = BytePool.NewPools s2) ∧
    (∀ (sizes : List Int) (p : BytePool), BytePool.NewPools sizes = some p →
      p.sizes.Sorted (· ≤ ·) ∧
      p.GetAvailableSizes = p.sizes ∧
      p.sizes.Perm sizes ∧
      p.maxPoolSize ∈ sizes ∧
      (∀ x ∈ sizes, x ≤ p.maxPoolSize)) := by
  constructor
  · intro s1 s2 hperm
    unfold BytePool.NewPools
    have hlen := hperm.length_eq
    by_cases h : s1.length < 1
    · rw [if_pos h, if_pos (by omega)]
    · rw [if_neg h, if_neg (by omega)]
      dsimp only
      have hsort : s1.insertionSort (· ≤ ·) = s2.insertionSort (· ≤ ·) :=
        List.eq_of_perm_of_sorted
          ((List.perm_insertionSort (· ≤ ·) s1).trans
            (hperm.trans (List.perm_insertionSort (· ≤ ·) s2).symm))
          (List.sorted_insertionSort (· ≤ ·) s1)
          (List.sorted_insertionSort (· ≤ ·) s2)
      rw [hsort, hlen]
  · intro sizes p h
    unfold BytePool.NewPools at h
    by_cases hlen : sizes.length < 1
    · rw [if_pos hlen] at h
      cases h
    · rw [if_neg hlen] at h
      dsimp only at h
      injection h with h
      subst h
      have hperm := List.perm_insertionSort (· ≤ ·) sizes
      have hsorted := List.sorted_insertionSort (· ≤ ·) sizes
      have hne : sizes.insertionSort (· ≤ ·) ≠ [] := by
        intro hnil
        have hl := hperm.length_eq
        rw [hnil] at hl
        simp at hl
        omega
      refine ⟨hsorted, rfl, hperm, ?_, ?_⟩
      · exact hperm.mem_iff.mp (getLastD_mem_of_ne_nil _ hne)
      · intro x hx
        exact le_getLastD_of_sorted _ hsorted x (hperm.mem_iff.mpr hx)

/-- Witness for C10: the permutations [256, 128] and [128, 256] build
the same pool, with sorted classes and maximum 256. -/
theorem newPools_permutation_invariant_witness :
    ([256, 128] : List Int).Perm [128, 256] ∧
    BytePool.NewPools [256, 128] = BytePool.NewPools [128, 256] ∧
    examplePool.sizes.Sorted (· ≤ ·) ∧
    examplePool.maxPoolSize ∈ ([128, 256] : List Int) := by
  refine ⟨by decide, newPools_permutation_invariant.1 [256, 128] [128, 256] (by decide),
    ?_, ?_⟩
  · exact (newPools_permutation_invariant.2 [128, 256] examplePool newPools_examplePool).1
  · exact (newPools_permutation_invariant.2 [128, 256] examplePool
      newPools_examplePool).2.2.2.1

/-! ## The pool invariant is preserved by Get and Put -/

theorem PoolInv_Get (p : BytePool) (n : Int) (hp : PoolInv p) :
    PoolInv (p.Get n).2 := by
  unfold BytePool.Get
  by_cases h0 : n ≤ 0
  · rw [if_pos h0]
    exact hp
  · rw [if_neg h0]
    dsimp only
    rw [show ({ p with recentLengths := p.recentLengths.Push n } : BytePool).findBestSize n
        = p.findBestSize n from rfl]
    by_cases hm : p.maxPoolSize < n
    · rw [if_pos hm]
      exact ⟨hp.sorted, hp.nonempty, hp.positive, hp.maxEq, hp.cacheCap⟩
    · rw [if_neg hm]
      by_cases hmem : p.findBestSize n ∈ p.sizes
      · rw [if_pos hmem]
        cases hc : p.pools (p.findBestSize n) with
        | nil =>
            exact ⟨hp.sorted, hp.nonempty, hp.positive, hp.maxEq, hp.cacheCap⟩
        | cons buf rest =>
            refine ⟨hp.sorted, hp.nonempty, hp.positive, hp.maxEq, ?_⟩
            intro c b hb
            dsimp only at hb
            show b.capacity = c
            by_cases hcs : c = p.findBestSize n
            · rw [if_pos hcs] at hb
              have hb2 : b ∈ p.pools (p.findBestSize n) := by
                rw [hc]
                exact List.mem_cons_of_mem buf hb
              rw [hcs]
              exact hp.cacheCap _ b hb2
            · rw [if_neg hcs] at hb
              exact hp.cacheCap c b hb
      · rw [if_neg hmem]
        exact ⟨hp.sorted, hp.nonempty, hp.positive, hp.maxEq, hp.cacheCap⟩

theorem PoolInv_Put (p : BytePool) (buf : GoSlice) (hp : PoolInv p) :
    PoolInv (p.Put buf) := by
  unfold BytePool.Put
  by_cases hc0 : buf.capacity = 0
  · rw [if_pos hc0]
    exact hp
  · rw [if_neg hc0]
    dsimp only
    by_cases hex : p.maxPoolSize < buf.capacity
    · rw [if_pos hex]
      exact ⟨hp.sorted, hp.nonempty, hp.positive, hp.maxEq, hp.cacheCap⟩
    · rw [if_neg hex]
      by_cases hmem : buf.capacity ∈ p.sizes
      · rw [if_pos hmem]
        refine ⟨hp.sorted, hp.nonempty, hp.positive, hp.maxEq, ?_⟩
        intro c b hb
        dsimp only at hb
        show b.capacity = c
        by_cases hcs : c = buf.capacity
        · rw [if_pos hcs] at hb
          rcases List.mem_cons.mp hb with hb2 | hb2
          · rw [hb2]
            exact hcs.symm
          · exact hp.cacheCap c b hb2
        · rw [if_neg hcs] at hb
          exact hp.cacheCap c b hb
      · rw [if_neg hmem]
        exact hp
